import Mathlib

/-!
# A log-backed persistent vector (`task.cc`)

Shallow embedding of the three classes of `task.cc`:

* `LogWriter`  : appends one line to the log file,
* `LogReader`  : decodes the log file record by record,
* `PersistentVector` : a `std::vector<std::string>` rebuilt from the log on
  construction and mirrored into the log on every mutation.

Bytes are `Fin 256`, a `std::string` is a `List Byte`, the log file is the
list of its bytes.  `int` is modelled by `Int` with an explicit range test
where the source computes on it.
-/

namespace PV

/-- One `char` of a `std::string` or of the log file. -/
abbrev Byte := Fin 256

/-! ## Outcomes -/

/-- Ways in which a call of the source does not return normally.  The source
reports no error of its own (every mutator returns `void`); the only
exception that can leave it is the one `std::string::resize` throws. -/
inductive Fault where
  /-- A C++ exception propagates to the caller (`std::length_error` from
  `content.resize(n)` with a negative `n`). -/
  | exception
  /-- The source runs into undefined behaviour: an unchecked access past the
  end of `data_`, a read of a `char` that was never assigned, or signed
  overflow of an `int`. -/
  | undefinedBehaviour
  /-- The loop budget of the model is used up.  The source does not return
  exactly when this is the result for every budget. -/
  | outOfFuel
  deriving DecidableEq, Repr

deriving instance DecidableEq for Except

/-! ## Decimal output: `snprintf(buffer, 10, ...)` -/

/-- The ASCII digit for `d` (`d < 10`). -/
def digitChar (d : Nat) : Byte := Fin.ofNat (48 + d)

/-- Digits of `n`, most significant first, put in front of `acc`. -/
def decimalAux : Nat → Nat → List Byte → List Byte
  | 0, _, acc => acc
  | fuel + 1, n, acc =>
    if n / 10 = 0 then digitChar (n % 10) :: acc
    else decimalAux fuel (n / 10) (digitChar (n % 10) :: acc)

/-- What `%lu` and `%u` print: the decimal ASCII representation of `n`. -/
def decimal (n : Nat) : List Byte := decimalAux (n + 1) n []

/-- The characters `snprintf(buffer, 10, fmt, n)` leaves in the 10-byte
buffer: at most 9 characters of the decimal representation (the tenth byte is
the terminating NUL). -/
def snprintf10 (n : Nat) : List Byte := (decimal n).take 9

/-! ## `LogWriter` -/

/-- What becomes of the bytes one `LogWriter::Append` hands to the stream
`log_`. -/
inductive WriteResult where
  /-- The whole line reaches the log file. -/
  | written
  /-- The stream is failed or fails during the write: only the first `reached`
  bytes of the line reach the log file (none when the file could not be
  opened). -/
  | failed (reached : Nat)
  deriving DecidableEq, Repr

/-- `LogWriter::Append`: `log_ << line; log_.flush();`.  The first argument is
the content of the log file (opened in append mode), the last one what the
stream does with the line.  Nothing is returned to the caller in either
case. -/
def LogWriter.Append (log_ : List Byte) (line : List Byte) (result : WriteResult) : List Byte :=
  match result with
  | .written => log_ ++ line
  | .failed reached => log_ ++ line.take reached

/-! ## `LogReader` -/

/-- The `std::ifstream log_` of a `LogReader`: the bytes not read yet and
whether `failbit` is set. -/
structure IStream where
  rest : List Byte
  fail : Bool
  deriving DecidableEq, Repr

/-- `LogReader::Start`: `log_.open(filename_)`.  A missing file leaves the
stream failed. -/
def LogReader.Start (file : Option (List Byte)) : IStream :=
  match file with
  | some bytes => ⟨bytes, false⟩
  | none => ⟨[], true⟩

/-- `log_.get(c)`: the character read, if any.  On a failed stream or at the
end of the file nothing is read, `c` keeps its value and `failbit` is set. -/
def IStream.get (s : IStream) : Option Byte × IStream :=
  if s.fail then (none, s)
  else
    match s.rest with
    | [] => (none, ⟨[], true⟩)
    | b :: bs => (some b, ⟨bs, false⟩)

/-- `LogReader::skipChar`: `char c; log_.get(c);`. -/
def LogReader.skipChar (s : IStream) : IStream := s.get.2

/-- `LogReader::readCommaFromInput`. -/
def LogReader.readCommaFromInput (s : IStream) : IStream := LogReader.skipChar s

/-- `LogReader::readNewLineFromInput`. -/
def LogReader.readNewLineFromInput (s : IStream) : IStream := LogReader.skipChar s

/-- The extraction loop of `log_.get(s, 10, ',')`: at most `count` characters,
stopping in front of a `','` or at the end of the file. -/
def getUntilComma : Nat → List Byte → List Byte × List Byte
  | 0, bs => ([], bs)
  | _ + 1, [] => ([], [])
  | count + 1, b :: bs =>
    if b = 44 then ([], b :: bs)
    else ((getUntilComma count bs).1.cons b, (getUntilComma count bs).2)

/-- `log_.get(s, 10, ',')`: the characters stored in `s` (at most 9) and the
stream afterwards; `failbit` is set when no character was stored. -/
def IStream.getField (s : IStream) : List Byte × IStream :=
  if s.fail then ([], s)
  else ((getUntilComma 9 s.rest).1, ⟨(getUntilComma 9 s.rest).2, (getUntilComma 9 s.rest).1.isEmpty⟩)

/-- C `isspace` in the "C" locale. -/
def isspace (c : Byte) : Bool := c.val = 32 || (9 ≤ c.val && c.val ≤ 13)

/-- C `isdigit`. -/
def isdigit (c : Byte) : Bool := 48 ≤ c.val && c.val ≤ 57

/-- The digit loop of `atoi`. -/
def atoiDigits : Nat → List Byte → Nat
  | acc, [] => acc
  | acc, c :: cs => if isdigit c then atoiDigits (acc * 10 + (c.val - 48)) cs else acc

/-- C `atoi` on the characters of the buffer: leading white space, an optional
sign, then digits up to the first other character (a NUL byte among them ends
the C string and is such a character).  The buffer holds at most 9 characters,
so the value fits an `int`. -/
def atoi (s : List Byte) : Int :=
  match s.dropWhile isspace with
  | [] => 0
  | c :: cs =>
    if c = 45 then - (atoiDigits 0 cs : Int)
    else if c = 43 then (atoiDigits 0 cs : Int)
    else (atoiDigits 0 (c :: cs) : Int)

/-- The value of a `char` as an `int` (plain `char` is signed on the x86-64
targets the repository builds for). -/
def charValue (c : Byte) : Int := if c.val < 128 then (c.val : Int) else (c.val : Int) - 256

/-- `LogReader::charToInt`: `c - '0'`. -/
def LogReader.charToInt (c : Byte) : Int := charValue c - 48

/-- Whether a value is representable as a 32-bit `int`. -/
def inIntRange (x : Int) : Bool := decide (-2147483648 ≤ x) && decide (x ≤ 2147483647)

/-- The `while (c != '\n')` loop of `readEraseLine`, `fuel` bounding the
number of evaluations of its condition.  A failed `log_.get(c)` leaves `c`
as it was. -/
def LogReader.readEraseLoop : Nat → Int → Byte → IStream → Except Fault (Int × IStream)
  | 0, _, _, _ => .error .outOfFuel
  | fuel + 1, index, c, s =>
    if c = 10 then .ok (index, s)
    else if inIntRange (index * 10) && inIntRange (index * 10 + LogReader.charToInt c) then
      LogReader.readEraseLoop fuel (index * 10 + LogReader.charToInt c) (s.get.1.getD c) s.get.2
    else .error .undefinedBehaviour

/-- `LogReader::readEraseLine`: the index of an erase record and the stream
behind the record.  When the first `log_.get(c)` fails the loop condition reads
a `char` that was never assigned. -/
def LogReader.readEraseLine (fuel : Nat) (s : IStream) : Except Fault (Int × IStream) :=
  match (LogReader.readCommaFromInput s).get with
  | (some c, s') => LogReader.readEraseLoop fuel 0 c s'
  | (none, _) => .error .undefinedBehaviour

/-- The `for (int i = 0; i < n; i++) { log_.get(c); content[i] = c; }` loop of
`readPushLine`; `c` is the current value of the local `char c` (`none` while it
was never assigned). -/
def LogReader.readContent : Nat → Option Byte → IStream → Except Fault (List Byte × IStream)
  | 0, _, s => .ok ([], s)
  | n + 1, c, s =>
    match s.get.1.orElse (fun _ => c) with
    | none => .error .undefinedBehaviour
    | some b =>
      match LogReader.readContent n (some b) s.get.2 with
      | .ok (content, s') => .ok (b :: content, s')
      | .error f => .error f

/-- `LogReader::readPushLine`: the content of a push record and the stream
behind the record.  `content.resize(n)` throws for a negative `n`. -/
def LogReader.readPushLine (s : IStream) : Except Fault (List Byte × IStream) :=
  let field := (LogReader.readCommaFromInput s).getField
  let n := atoi field.1
  if n < 0 then .error .exception
  else
    match LogReader.readContent n.toNat none (LogReader.readCommaFromInput field.2) with
    | .ok (content, s') => .ok (content, LogReader.readNewLineFromInput s')
    | .error f => .error f

/-- What one successful `LogReader::Next` hands to its caller through its
reference parameters: `type` and, according to it, `index` or `content`. -/
inductive Record where
  | erase (index : Int)
  | push (type : Byte) (content : List Byte)
  deriving DecidableEq, Repr

/-- `LogReader::Next`: `none` for `return false`, otherwise the decoded record
and the stream behind it. -/
def LogReader.Next (fuel : Nat) (s : IStream) : Except Fault (Option (Record × IStream)) :=
  if s.fail then .ok none
  else
    match s.rest with
    | [] => .ok none
    | type :: bs =>
      if type = 48 then
        match LogReader.readEraseLine fuel ⟨bs, false⟩ with
        | .ok (index, s') => .ok (some (.erase index, s'))
        | .error f => .error f
      else
        match LogReader.readPushLine ⟨bs, false⟩ with
        | .ok (content, s') => .ok (some (.push type content, s'))
        | .error f => .error f

/-! ## `PersistentVector` -/

/-- The state of a `PersistentVector`: the vector `data_` and the content of
the log file its `log_writer_` appends to. -/
structure PersistentVector where
  data_ : List (List Byte)
  log_ : List Byte
  deriving DecidableEq, Repr

/-- The `while (lr.Next(type, content, index))` loop of the constructor.
`data_.erase(data_.begin() + index)` is defined only for an index inside the
vector. -/
def replay : Nat → IStream → List (List Byte) → Except Fault (List (List Byte))
  | 0, _, _ => .error .outOfFuel
  | fuel + 1, s, data =>
    match LogReader.Next fuel s with
    | .error f => .error f
    | .ok none => .ok data
    | .ok (some (.erase index, s')) =>
      if 0 ≤ index ∧ index < data.length then replay fuel s' (data.eraseIdx index.toNat)
      else .error .undefinedBehaviour
    | .ok (some (.push _ content, s')) => replay fuel s' (data ++ [content])

/-- `PersistentVector::PersistentVector(directory)`, `file` being the log
file of the directory if there is one. -/
def PersistentVector.construct (fuel : Nat) (file : Option (List Byte)) :
    Except Fault PersistentVector :=
  match replay fuel (LogReader.Start file) [] with
  | .ok data => .ok ⟨data, file.getD []⟩
  | .error f => .error f

/-- `PersistentVector::createPushLog`. -/
def PersistentVector.createPushLog (v : List Byte) : List Byte :=
  [49, 44] ++ snprintf10 v.length ++ [44] ++ v ++ [10]

/-- `PersistentVector::createEraseLog(unsigned index)`: the argument is
converted to the 32-bit `unsigned` parameter. -/
def PersistentVector.createEraseLog (index : Nat) : List Byte :=
  [48, 44] ++ snprintf10 (index % 4294967296) ++ [10]

/-- `PersistentVector::push_back`. -/
def PersistentVector.push_back (pv : PersistentVector) (v : List Byte) (result : WriteResult) :
    PersistentVector :=
  ⟨pv.data_ ++ [v], LogWriter.Append pv.log_ (PersistentVector.createPushLog v) result⟩

/-- `PersistentVector::size`. -/
def PersistentVector.size (pv : PersistentVector) : Nat := pv.data_.length

/-- `PersistentVector::at`: `data_[index]`, an unchecked access. -/
def PersistentVector.at (pv : PersistentVector) (index : Nat) : Except Fault (List Byte) :=
  match pv.data_[index]? with
  | some v => .ok v
  | none => .error .undefinedBehaviour

/-- What a call of `erase` leaves behind: the log file, and the vector when
the call returned normally. -/
structure EraseResult where
  log_ : List Byte
  data_ : Except Fault (List (List Byte))
  deriving DecidableEq

/-- `PersistentVector::erase`: the record is appended first, then
`data_.erase(data_.begin() + index)` runs, which is defined only for an index
inside the vector. -/
def PersistentVector.erase (pv : PersistentVector) (index : Nat) (result : WriteResult) :
    EraseResult :=
  ⟨LogWriter.Append pv.log_ (PersistentVector.createEraseLog index) result,
   if index < pv.data_.length then .ok (pv.data_.eraseIdx index) else .error .undefinedBehaviour⟩

/-- The vector a call of `erase` leaves to the caller, with the log file. -/
def EraseResult.toVector (r : EraseResult) : Except Fault PersistentVector :=
  match r.data_ with
  | .ok data => .ok ⟨data, r.log_⟩
  | .error f => .error f

/-- A mutating call of the public interface, as the test drivers issue them. -/
inductive Call where
  | push_back (v : List Byte)
  | erase (index : Nat)
  deriving DecidableEq, Repr

/-- The record a call hands to `LogWriter::Append`. -/
def Call.record : Call → List Byte
  | .push_back v => PersistentVector.createPushLog v
  | .erase index => PersistentVector.createEraseLog index

/-- The records of a sequence of calls, one after the other. -/
def recordsOf : List Call → List Byte
  | [] => []
  | c :: cs => c.record ++ recordsOf cs

/-- One call whose append reaches the log file. -/
def PersistentVector.call (pv : PersistentVector) : Call → Except Fault PersistentVector
  | .push_back v => .ok (pv.push_back v .written)
  | .erase index => (pv.erase index .written).toVector

/-- A sequence of calls, each append reaching the log file; it stops at the
first call that does not return normally. -/
def PersistentVector.calls (pv : PersistentVector) : List Call → Except Fault PersistentVector
  | [] => .ok pv
  | c :: cs =>
    match pv.call c with
    | .ok pv' => pv'.calls cs
    | .error f => .error f

/-- One `push_back` per entry of the list, in order; the second component of
an entry tells what the stream does with that call's append. -/
def PersistentVector.pushAll (pv : PersistentVector) : List (List Byte × WriteResult) → PersistentVector
  | [] => pv
  | c :: cs => (pv.push_back c.1 c.2).pushAll cs

/-- Every `erase` of the sequence has its index inside the vector at the time
of the call, the vector having `size` elements before the first call. -/
def callsInRange : Nat → List Call → Bool
  | _, [] => true
  | size, .push_back _ :: cs => callsInRange (size + 1) cs
  | size, .erase index :: cs => decide (index < size) && callsInRange (size - 1) cs

/-- The call's number (length of the pushed value, erased index) has at most
9 decimal digits. -/
def Call.withinCap : Call → Bool
  | .push_back v => decide (v.length < 1000000000)
  | .erase index => decide (index < 1000000000)

/-! ## Auxiliary definitions for the proofs -/

/-- Value of a run of ASCII digits read left to right from accumulator `acc`. -/
def digitsVal (acc : Nat) (ds : List Byte) : Nat :=
  ds.foldl (fun a c => a * 10 + (c.val - 48)) acc

/-- A value of 10^9 bytes, all NUL: the shortest length whose decimal
representation does not fit the 10-byte buffers. -/
def longValue : List Byte := List.replicate 1000000000 0

/-- The index an erase record carries: the value of the digits
`createEraseLog` prints for `index`. -/
def loggedIndex (index : Nat) : Nat := digitsVal 0 (snprintf10 (index % 4294967296))

/-- The pushed value is shorter than 10^9 bytes; nothing is asked of an
`erase`. -/
def Call.valueWithinCap : Call → Bool
  | .push_back v => decide (v.length < 1000000000)
  | .erase _ => true

/-- What replaying the record of a call does to the rebuilt vector: a push
record appends its content, an erase record removes at the index it carries. -/
def replayStep (data : List (List Byte)) : Call → List (List Byte)
  | .push_back v => data ++ [v]
  | .erase index => data.eraseIdx (loggedIndex index)

/-! ## Records and replay step in the words of the specification -/

/-- The wire format of a mutation record as the specification gives it:
`1,<length>,<content>` and a newline for a push, `0,<index>` and a newline for
an erase, the numbers in decimal ASCII without fixed width. -/
def specWire : Call → List Byte
  | .push_back v => [49, 44] ++ decimal v.length ++ [44] ++ v ++ [10]
  | .erase index => [48, 44] ++ decimal index ++ [10]

/-- The records of a sequence in the specification's wire format, in order. -/
def specLog : List Call → List Byte
  | [] => []
  | c :: cs => specWire c ++ specLog cs

/-- A log that is a concatenation of well-formed records: every record in the
wire format, its length or index field within the 9-digit cap. -/
def WellFormedLog (log : List Byte) : Prop :=
  ∃ cs : List Call, (∀ c ∈ cs, c.withinCap = true) ∧ log = specLog cs

/-- The replay step as the specification words it: a push appends the content
to the tail, an erase removes the element at the given index, shifting later
elements down by one. -/
def specApply (data : List (List Byte)) : Call → List (List Byte)
  | .push_back v => data ++ [v]
  | .erase index => data.eraseIdx index

open PersistentVector

/-! ## Decimal output and its parsers -/

theorem digitChar_val (d : Nat) (h : d < 10) : (digitChar d).val = 48 + d := by
  simp only [digitChar, Fin.ofNat, Fin.val_mk]
  omega

theorem isdigit_digitChar (d : Nat) (h : d < 10) : isdigit (digitChar d) = true := by
  simp only [isdigit, digitChar_val d h, Bool.and_eq_true, decide_eq_true_eq]
  omega

theorem decimalAux_acc (fuel n : Nat) (acc : List Byte) :
    decimalAux fuel n acc = decimalAux fuel n [] ++ acc := by
  induction fuel generalizing n acc with
  | zero => simp [decimalAux]
  | succ fuel ih =>
    simp only [decimalAux]
    split
    · simp
    · rw [ih (n / 10) (digitChar (n % 10) :: acc), ih (n / 10) [digitChar (n % 10)]]
      simp

theorem decimalAux_succ (fuel n : Nat) :
    decimalAux (fuel + 1) n [] =
      if n / 10 = 0 then [digitChar (n % 10)]
      else decimalAux fuel (n / 10) [] ++ [digitChar (n % 10)] := by
  simp only [decimalAux]
  split
  · rfl
  · exact decimalAux_acc fuel (n / 10) [digitChar (n % 10)]

theorem decimalAux_isdigit (fuel n : Nat) : ∀ c ∈ decimalAux fuel n [], isdigit c = true := by
  induction fuel generalizing n with
  | zero => simp [decimalAux]
  | succ fuel ih =>
    rw [decimalAux_succ]
    have hd := isdigit_digitChar (n % 10) (Nat.mod_lt _ (by decide))
    split
    · simpa using hd
    · intro c hc
      rcases List.mem_append.1 hc with h | h
      · exact ih _ c h
      · simp only [List.mem_singleton] at h
        rw [h]; exact hd

theorem decimalAux_length_le (fuel n k : Nat) (h : n < 10 ^ (k + 1)) :
    (decimalAux fuel n []).length ≤ k + 1 := by
  induction fuel generalizing n k with
  | zero => simp [decimalAux]
  | succ fuel ih =>
    rw [decimalAux_succ]
    split
    · simp
    · rename_i hn
      cases k with
      | zero => omega
      | succ k =>
        have : n / 10 < 10 ^ (k + 1) := by
          rw [Nat.div_lt_iff_lt_mul (by decide)]
          rw [pow_succ] at h
          exact h
        have := ih (n / 10) k this
        simp only [List.length_append, List.length_singleton]
        omega

theorem decimalAux_ne_nil (fuel n : Nat) : decimalAux (fuel + 1) n [] ≠ [] := by
  rw [decimalAux_succ]
  split <;> simp

theorem digitsVal_append (acc : Nat) (xs ys : List Byte) :
    digitsVal acc (xs ++ ys) = digitsVal (digitsVal acc xs) ys := by
  simp [digitsVal, List.foldl_append]

theorem digitsVal_decimalAux (fuel n : Nat) (h : n < fuel) :
    digitsVal 0 (decimalAux fuel n []) = n := by
  induction fuel generalizing n with
  | zero => omega
  | succ fuel ih =>
    rw [decimalAux_succ]
    have hd := digitChar_val (n % 10) (Nat.mod_lt _ (by decide))
    split
    · rename_i h0
      simp only [digitsVal, List.foldl_cons, List.foldl_nil, hd]
      omega
    · rename_i h0
      rw [digitsVal_append, ih (n / 10) (by omega)]
      simp only [digitsVal, List.foldl_cons, List.foldl_nil, hd]
      omega

theorem decimal_isdigit (n : Nat) : ∀ c ∈ decimal n, isdigit c = true :=
  decimalAux_isdigit (n + 1) n

theorem decimal_ne_nil (n : Nat) : decimal n ≠ [] := decimalAux_ne_nil n n

theorem digitsVal_decimal (n : Nat) : digitsVal 0 (decimal n) = n :=
  digitsVal_decimalAux (n + 1) n (Nat.lt_succ_self n)

theorem decimal_length_le (n : Nat) (h : n < 1000000000) : (decimal n).length ≤ 9 :=
  decimalAux_length_le (n + 1) n 8 (by omega)

theorem snprintf10_eq (n : Nat) (h : n < 1000000000) : snprintf10 n = decimal n :=
  List.take_of_length_le (decimal_length_le n h)

theorem digitChar_eq (d : Nat) (h : d < 10) :
    (Fin.ofNat (Nat.digitChar d).toNat : Byte) = digitChar d := by
  interval_cases d <;> rfl

theorem toDigitsCore_map (fuel n : Nat) (ds : List Char) :
    (Nat.toDigitsCore 10 fuel n ds).map (fun c => (Fin.ofNat c.toNat : Byte)) =
      decimalAux fuel n (ds.map (fun c => (Fin.ofNat c.toNat : Byte))) := by
  induction fuel generalizing n ds with
  | zero => rfl
  | succ fuel ih =>
    have hd := digitChar_eq (n % 10) (Nat.mod_lt _ (by decide))
    simp only [Nat.toDigitsCore, decimalAux]
    split
    · simp [hd]
    · rw [ih]
      simp [hd]

theorem decimal_eq_toDigits (n : Nat) :
    decimal n = (Nat.toDigits 10 n).map (fun c => (Fin.ofNat c.toNat : Byte)) := by
  rw [Nat.toDigits, toDigitsCore_map]
  rfl

theorem atoiDigits_append (acc : Nat) (ds rest : List Byte) (hd : ∀ c ∈ ds, isdigit c = true) :
    atoiDigits acc (ds ++ rest) = atoiDigits (digitsVal acc ds) rest := by
  induction ds generalizing acc with
  | nil => rfl
  | cons d ds ih =>
    have h1 : isdigit d = true := hd d (List.mem_cons_self _ _)
    have h2 := ih (acc * 10 + (d.val - 48)) (fun c hc => hd c (List.mem_cons_of_mem _ hc))
    rw [List.cons_append, atoiDigits, if_pos h1]
    exact h2

theorem atoiDigits_digits (ds : List Byte) (hd : ∀ c ∈ ds, isdigit c = true) :
    atoiDigits 0 ds = digitsVal 0 ds := by
  have := atoiDigits_append 0 ds [] hd
  simpa [atoiDigits] using this

theorem isdigit_not_isspace (c : Byte) (h : isdigit c = true) : isspace c = false := by
  simp only [isdigit, Bool.and_eq_true, decide_eq_true_eq] at h
  simp only [isspace, Bool.or_eq_false_iff, Bool.and_eq_false_iff, decide_eq_false_iff_not]
  omega

theorem isdigit_ne_comma (c : Byte) (h : isdigit c = true) : c ≠ 44 := by
  intro hc
  rw [hc] at h
  exact absurd h (by decide)

theorem atoi_digits (ds : List Byte) (hd : ∀ c ∈ ds, isdigit c = true) :
    atoi ds = (digitsVal 0 ds : Int) := by
  cases ds with
  | nil => rfl
  | cons d ds =>
    have h1 : isdigit d = true := hd d (List.mem_cons_self _ _)
    have h45 : d ≠ 45 := by intro hc; rw [hc] at h1; exact absurd h1 (by decide)
    have h43 : d ≠ 43 := by intro hc; rw [hc] at h1; exact absurd h1 (by decide)
    have h2 : List.dropWhile isspace (d :: ds) = d :: ds := by
      simp [List.dropWhile_cons, isdigit_not_isspace d h1]
    simp only [atoi, h2, h45, h43, if_false]
    rw [atoiDigits_digits _ hd]

theorem atoi_decimal (n : Nat) : atoi (decimal n) = (n : Int) := by
  rw [atoi_digits _ (decimal_isdigit n), digitsVal_decimal]

theorem getUntilComma_digits (ds rest : List Byte) (count : Nat)
    (hd : ∀ c ∈ ds, isdigit c = true) (hlen : ds.length ≤ count) :
    getUntilComma count (ds ++ 44 :: rest) = (ds, 44 :: rest) := by
  induction ds generalizing count with
  | nil => cases count <;> simp [getUntilComma]
  | cons d ds ih =>
    cases count with
    | zero => simp at hlen
    | succ count =>
      have h1 : d ≠ 44 := isdigit_ne_comma d (hd d (List.mem_cons_self _ _))
      have := ih count (fun c hc => hd c (List.mem_cons_of_mem _ hc))
        (by simpa using hlen)
      simp [getUntilComma, h1, this]

theorem readContent_exact (v rest : List Byte) (c : Option Byte) :
    LogReader.readContent v.length c ⟨v ++ rest, false⟩ = .ok (v, ⟨rest, false⟩) := by
  induction v generalizing c with
  | nil => rfl
  | cons b v ih =>
    simp [LogReader.readContent, IStream.get, ih]

theorem readPushLine_createPushLog (v rest : List Byte) (h : v.length < 1000000000) :
    LogReader.readPushLine ⟨[44] ++ snprintf10 v.length ++ [44] ++ v ++ [10] ++ rest, false⟩
      = .ok (v, ⟨rest, false⟩) := by
  rw [snprintf10_eq _ h]
  have hne := decimal_ne_nil v.length
  have hf : IStream.getField ⟨decimal v.length ++ 44 :: (v ++ 10 :: rest), false⟩ =
      (decimal v.length, ⟨44 :: (v ++ 10 :: rest), false⟩) := by
    simp [IStream.getField, getUntilComma_digits _ _ 9 (decimal_isdigit _) (decimal_length_le _ h),
      hne]
  simp only [LogReader.readPushLine, LogReader.readCommaFromInput, LogReader.skipChar,
    LogReader.readNewLineFromInput, IStream.get, List.singleton_append, List.cons_append,
    List.append_assoc, List.nil_append, if_false, Bool.false_eq_true, hf, atoi_decimal]
  simp [readContent_exact v (10 :: rest) none, IStream.get]

theorem Next_createPushLog (fuel : Nat) (v rest : List Byte) (h : v.length < 1000000000) :
    LogReader.Next fuel ⟨createPushLog v ++ rest, false⟩ =
      .ok (some (.push 49 v, ⟨rest, false⟩)) := by
  have := readPushLine_createPushLog v rest h
  simp only [List.singleton_append, List.cons_append, List.append_assoc, List.nil_append] at this
  simp [LogReader.Next, createPushLog, this]

/-! ## Erase lines -/

theorem charToInt_digit (c : Byte) (h : isdigit c = true) :
    LogReader.charToInt c = ((c.val - 48 : Nat) : Int) := by
  simp only [isdigit, Bool.and_eq_true, decide_eq_true_eq] at h
  simp only [LogReader.charToInt, charValue]
  split <;> omega

theorem isdigit_ne_newline (c : Byte) (h : isdigit c = true) : c ≠ 10 := by
  intro hc
  rw [hc] at h
  exact absurd h (by decide)

theorem le_digitsVal (acc : Nat) (ds : List Byte) : acc ≤ digitsVal acc ds := by
  induction ds generalizing acc with
  | nil => exact Nat.le_refl _
  | cons d ds ih =>
    have := ih (acc * 10 + (d.val - 48))
    simp only [digitsVal, List.foldl_cons] at this ⊢
    omega

theorem readEraseLoop_digits (ds rest : List Byte) (index : Nat) (c : Byte) (fuel : Nat)
    (hc : isdigit c = true) (hd : ∀ d ∈ ds, isdigit d = true)
    (hv : digitsVal index (c :: ds) ≤ 2147483647) (hfuel : ds.length + 2 ≤ fuel) :
    LogReader.readEraseLoop fuel (index : Int) c ⟨ds ++ 10 :: rest, false⟩ =
      .ok ((digitsVal index (c :: ds) : Nat), ⟨rest, false⟩) := by
  induction ds generalizing index c fuel with
  | nil =>
    obtain ⟨f, rfl⟩ : ∃ f, fuel = f + 2 := ⟨fuel - 2, by simp at hfuel; omega⟩
    have h1 : ((index : Int) * 10 + LogReader.charToInt c) = ((index * 10 + (c.val - 48) : Nat) : Int) := by
      rw [charToInt_digit c hc]; push_cast; ring
    have h2 : inIntRange ((index : Int) * 10) = true := by
      simp only [digitsVal, List.foldl_cons, List.foldl_nil] at hv
      simp only [inIntRange, Bool.and_eq_true, decide_eq_true_eq]
      omega
    have h3 : inIntRange ((index * 10 + (c.val - 48) : Nat) : Int) = true := by
      simp only [digitsVal, List.foldl_cons, List.foldl_nil] at hv
      simp only [inIntRange, Bool.and_eq_true, decide_eq_true_eq]
      omega
    simp only [LogReader.readEraseLoop, isdigit_ne_newline c hc, if_false, h1, h2, h3,
      Bool.and_self, if_true, IStream.get, List.nil_append, Bool.false_eq_true, Option.getD_some]
    rfl
  | cons d ds ih =>
    obtain ⟨f, rfl⟩ : ∃ f, fuel = f + 1 := ⟨fuel - 1, by omega⟩
    have hle := le_digitsVal (index * 10 + (c.val - 48)) (d :: ds)
    have hv' : digitsVal (index * 10 + (c.val - 48)) (d :: ds) ≤ 2147483647 := hv
    have h1 : ((index : Int) * 10 + LogReader.charToInt c) = ((index * 10 + (c.val - 48) : Nat) : Int) := by
      rw [charToInt_digit c hc]; push_cast; ring
    have h2 : inIntRange ((index : Int) * 10) = true := by
      simp only [inIntRange, Bool.and_eq_true, decide_eq_true_eq]
      omega
    have h3 : inIntRange ((index * 10 + (c.val - 48) : Nat) : Int) = true := by
      simp only [inIntRange, Bool.and_eq_true, decide_eq_true_eq]
      omega
    have := ih (index * 10 + (c.val - 48)) d f (hd d (List.mem_cons_self _ _))
      (fun x hx => hd x (List.mem_cons_of_mem _ hx)) hv' (by simp at hfuel; omega)
    simp only [LogReader.readEraseLoop, isdigit_ne_newline c hc, if_false, h1, h2, h3,
      Bool.and_self, if_true, IStream.get, List.cons_append, Bool.false_eq_true, Option.getD_some,
      this]
    rfl

theorem readEraseLine_decimal (fuel n : Nat) (rest : List Byte) (h : n ≤ 2147483647)
    (hfuel : (decimal n).length + 1 ≤ fuel) :
    LogReader.readEraseLine fuel ⟨[44] ++ decimal n ++ [10] ++ rest, false⟩ =
      .ok ((n : Int), ⟨rest, false⟩) := by
  have hdig := decimal_isdigit n
  have hval := digitsVal_decimal n
  cases hds : decimal n with
  | nil => exact absurd hds (decimal_ne_nil n)
  | cons c ds =>
    rw [hds] at hdig hval hfuel
    have := readEraseLoop_digits ds rest 0 c fuel (hdig c (List.mem_cons_self _ _))
      (fun x hx => hdig x (List.mem_cons_of_mem _ hx))
      (by have h0 : digitsVal 0 (c :: ds) = n := hval
          omega)
      (by simpa using hfuel)
    rw [hval] at this
    simpa [LogReader.readEraseLine, LogReader.readCommaFromInput, LogReader.skipChar,
      IStream.get] using this

theorem Next_createEraseLog (fuel index : Nat) (rest : List Byte) (h : index < 1000000000)
    (hfuel : 10 ≤ fuel) :
    LogReader.Next fuel ⟨createEraseLog index ++ rest, false⟩ =
      .ok (some (.erase index, ⟨rest, false⟩)) := by
  have hm : index % 4294967296 = index := Nat.mod_eq_of_lt (by omega)
  have hl := decimal_length_le index h
  have := readEraseLine_decimal fuel index rest (by omega) (by omega)
  simp only [List.singleton_append, List.cons_append, List.append_assoc, List.nil_append] at this
  simp [LogReader.Next, createEraseLog, hm, snprintf10_eq _ h, this]

/-! ## Bounds on what replay can produce -/

theorem getUntilComma_length (count : Nat) (bs : List Byte) :
    (getUntilComma count bs).1.length ≤ count := by
  induction count generalizing bs with
  | zero => simp [getUntilComma]
  | succ count ih =>
    cases bs with
    | nil => simp [getUntilComma]
    | cons b bs =>
      simp only [getUntilComma]
      split
      · simp
      · have := ih bs
        simp only [List.cons, List.length_cons]
        omega

theorem atoiDigits_lt (acc : Nat) (cs : List Byte) :
    atoiDigits acc cs < (acc + 1) * 10 ^ cs.length := by
  induction cs generalizing acc with
  | nil => simp [atoiDigits]
  | cons c cs ih =>
    simp only [atoiDigits]
    split
    · rename_i hc
      simp only [isdigit, Bool.and_eq_true, decide_eq_true_eq] at hc
      have h1 := ih (acc * 10 + (c.val - 48))
      have h2 : (acc * 10 + (c.val - 48) + 1) * 10 ^ cs.length ≤ (acc + 1) * 10 ^ (cs.length + 1) := by
        have h3 : acc * 10 + (c.val - 48) + 1 ≤ (acc + 1) * 10 := by omega
        calc (acc * 10 + (c.val - 48) + 1) * 10 ^ cs.length
            ≤ ((acc + 1) * 10) * 10 ^ cs.length := Nat.mul_le_mul_right _ h3
          _ = (acc + 1) * 10 ^ (cs.length + 1) := by ring
      simp only [List.length_cons]
      omega
    · have : 0 < 10 ^ (c :: cs).length := Nat.pow_pos (by decide)
      calc acc < acc + 1 := Nat.lt_succ_self _
        _ ≤ (acc + 1) * 10 ^ (c :: cs).length := Nat.le_mul_of_pos_right _ this

theorem atoiDigits_zero_lt (cs : List Byte) (h : cs.length ≤ 9) :
    atoiDigits 0 cs < 1000000000 := by
  have h1 := atoiDigits_lt 0 cs
  have h2 : 10 ^ cs.length ≤ 10 ^ 9 := Nat.pow_le_pow_right (by decide) h
  simp only [Nat.zero_add, Nat.one_mul] at h1
  have : (10 : Nat) ^ 9 = 1000000000 := by norm_num
  omega

theorem atoi_lt (s : List Byte) (h : s.length ≤ 9) : atoi s < 1000000000 := by
  have hl : (s.dropWhile isspace).length ≤ 9 :=
    Nat.le_trans (List.Sublist.length_le (List.dropWhile_sublist _)) h
  simp only [atoi]
  cases hs : s.dropWhile isspace with
  | nil => simp
  | cons c cs =>
    rw [hs] at hl
    simp only [List.length_cons] at hl
    have h1 := atoiDigits_zero_lt cs (by omega)
    have h2 := atoiDigits_zero_lt (c :: cs) (by simpa using hl)
    simp only
    split
    · omega
    · split <;> omega

theorem readContent_length (n : Nat) (c : Option Byte) (s s' : IStream) (content : List Byte)
    (h : LogReader.readContent n c s = .ok (content, s')) : content.length = n := by
  induction n generalizing c s s' content with
  | zero =>
    simp only [LogReader.readContent, Except.ok.injEq, Prod.mk.injEq] at h
    rw [← h.1]; rfl
  | succ n ih =>
    simp only [LogReader.readContent] at h
    split at h
    · exact absurd h (by simp)
    · rename_i b hb
      split at h
      · rename_i content1 s1 h1
        simp only [Except.ok.injEq, Prod.mk.injEq] at h
        rw [← h.1, List.length_cons, ih _ _ _ _ h1]
      · exact absurd h (by simp)

theorem getField_length (s : IStream) : s.getField.1.length ≤ 9 := by
  simp only [IStream.getField]
  split
  · simp
  · exact getUntilComma_length 9 s.rest

theorem readPushLine_length (s s' : IStream) (content : List Byte)
    (h : LogReader.readPushLine s = .ok (content, s')) : content.length < 1000000000 := by
  simp only [LogReader.readPushLine] at h
  have hb := atoi_lt _ (getField_length (LogReader.readCommaFromInput s))
  split at h
  · exact absurd h (by simp)
  · split at h
    · rename_i content1 s1 h1
      simp only [Except.ok.injEq, Prod.mk.injEq] at h
      rw [← h.1, readContent_length _ _ _ _ _ h1]
      omega
    · exact absurd h (by simp)

theorem Next_push_length (fuel : Nat) (s s' : IStream) (type : Byte) (content : List Byte)
    (h : LogReader.Next fuel s = .ok (some (.push type content, s'))) :
    content.length < 1000000000 := by
  simp only [LogReader.Next] at h
  split at h
  · exact absurd h (by simp)
  · split at h
    · exact absurd h (by simp)
    · split at h
      · split at h
        · simp at h
        · exact absurd h (by simp)
      · split at h
        · rename_i content1 s1 h1
          simp only [Except.ok.injEq, Option.some.injEq, Prod.mk.injEq, Record.push.injEq] at h
          rw [← h.1.2]
          exact readPushLine_length _ _ _ h1
        · exact absurd h (by simp)

theorem replay_lengths (fuel : Nat) (s : IStream) (data data' : List (List Byte))
    (h : replay fuel s data = .ok data') (hd : ∀ x ∈ data, x.length < 1000000000) :
    ∀ x ∈ data', x.length < 1000000000 := by
  induction fuel generalizing s data with
  | zero => exact absurd h (by simp [replay])
  | succ fuel ih =>
    simp only [replay] at h
    split at h
    · exact absurd h (by simp)
    · simp only [Except.ok.injEq] at h
      rw [← h]; exact hd
    · split at h
      · exact ih _ _ h (fun x hx => hd x (List.mem_of_mem_eraseIdx hx))
      · exact absurd h (by simp)
    · rename_i type content s1 h1
      refine ih _ _ h ?_
      intro x hx
      rcases List.mem_append.1 hx with hx | hx
      · exact hd x hx
      · simp only [List.mem_singleton] at hx
        rw [hx]
        exact Next_push_length _ _ _ _ _ h1

/-! ## Replaying the records of a sequence of calls -/

theorem createPushLog_length_pos (v : List Byte) : 0 < (createPushLog v).length := by
  simp [createPushLog]

theorem createEraseLog_length_pos (index : Nat) : 0 < (createEraseLog index).length := by
  simp [createEraseLog]

theorem replay_nil (fuel : Nat) (data : List (List Byte)) :
    replay (fuel + 1) ⟨[], false⟩ data = .ok data := by
  simp [replay, LogReader.Next]

theorem replay_push (fuel : Nat) (v rest : List Byte) (data : List (List Byte))
    (h : v.length < 1000000000) :
    replay (fuel + 1) ⟨createPushLog v ++ rest, false⟩ data =
      replay fuel ⟨rest, false⟩ (data ++ [v]) := by
  simp only [replay, Next_createPushLog fuel v rest h]

theorem replay_erase (fuel index : Nat) (rest : List Byte) (data : List (List Byte))
    (h : index < 1000000000) (hr : index < data.length) (hfuel : 10 ≤ fuel) :
    replay (fuel + 1) ⟨createEraseLog index ++ rest, false⟩ data =
      replay fuel ⟨rest, false⟩ (data.eraseIdx index) := by
  have h1 : (0 : Int) ≤ (index : Int) ∧ (index : Int) < (data.length : Int) :=
    ⟨Int.natCast_nonneg _, by exact_mod_cast hr⟩
  simp only [replay, Next_createEraseLog fuel index rest h hfuel, h1, and_self, if_true,
    Int.toNat_ofNat]

theorem calls_replay (cs : List Call) (pv pv' : PersistentVector) (fuel : Nat)
    (hrun : pv.calls cs = .ok pv') (hcap : ∀ c ∈ cs, c.withinCap = true)
    (hfuel : (recordsOf cs).length + 11 ≤ fuel) :
    replay fuel ⟨recordsOf cs, false⟩ pv.data_ = .ok pv'.data_ := by
  induction cs generalizing pv fuel with
  | nil =>
    obtain ⟨f, rfl⟩ : ∃ f, fuel = f + 1 := ⟨fuel - 1, by omega⟩
    simp only [PersistentVector.calls, Except.ok.injEq] at hrun
    rw [← hrun]
    exact replay_nil f pv.data_
  | cons c cs ih =>
    obtain ⟨f, rfl⟩ : ∃ f, fuel = f + 1 := ⟨fuel - 1, by omega⟩
    have hc := hcap c (List.mem_cons_self _ _)
    have hcs : ∀ c ∈ cs, c.withinCap = true := fun x hx => hcap x (List.mem_cons_of_mem _ hx)
    simp only [recordsOf, List.length_append] at hfuel
    cases c with
    | push_back v =>
      simp only [Call.withinCap, decide_eq_true_eq] at hc
      simp only [PersistentVector.calls, PersistentVector.call] at hrun
      have hpos := createPushLog_length_pos v
      simp only [Call.record] at hfuel
      have := ih (pv.push_back v .written) f hrun hcs (by omega)
      simp only [recordsOf, Call.record]
      rw [replay_push f v _ _ hc]
      exact this
    | erase index =>
      simp only [Call.withinCap, decide_eq_true_eq] at hc
      simp only [PersistentVector.calls, PersistentVector.call, EraseResult.toVector,
        PersistentVector.erase] at hrun
      have hpos := createEraseLog_length_pos index
      simp only [Call.record] at hfuel
      by_cases hr : index < pv.data_.length
      · simp only [hr, if_true] at hrun
        have := ih _ f hrun hcs (by omega)
        simp only [recordsOf, Call.record]
        rw [replay_erase f index _ _ hc hr (by omega)]
        exact this
      · simp only [hr, if_false] at hrun
        exact absurd hrun (by simp)

theorem calls_log (cs : List Call) (pv pv' : PersistentVector)
    (hrun : pv.calls cs = .ok pv') : pv'.log_ = pv.log_ ++ recordsOf cs := by
  induction cs generalizing pv with
  | nil =>
    simp only [PersistentVector.calls, Except.ok.injEq] at hrun
    simp [recordsOf, hrun]
  | cons c cs ih =>
    cases c with
    | push_back v =>
      simp only [PersistentVector.calls, PersistentVector.call] at hrun
      rw [ih _ hrun]
      simp [recordsOf, Call.record, PersistentVector.push_back, LogWriter.Append]
    | erase index =>
      simp only [PersistentVector.calls, PersistentVector.call, EraseResult.toVector,
        PersistentVector.erase] at hrun
      by_cases hr : index < pv.data_.length
      · simp only [hr, if_true] at hrun
        rw [ih _ hrun]
        simp [recordsOf, Call.record, LogWriter.Append]
      · simp only [hr, if_false] at hrun
        exact absurd hrun (by simp)

theorem calls_ok_of_inRange (cs : List Call) (pv : PersistentVector)
    (h : callsInRange pv.size cs = true) : ∃ pv', pv.calls cs = .ok pv' := by
  induction cs generalizing pv with
  | nil => exact ⟨pv, rfl⟩
  | cons c cs ih =>
    cases c with
    | push_back v =>
      simp only [callsInRange] at h
      have := ih (pv.push_back v .written)
        (by simpa [PersistentVector.size, PersistentVector.push_back] using h)
      simpa [PersistentVector.calls, PersistentVector.call] using this
    | erase index =>
      simp only [callsInRange, Bool.and_eq_true, decide_eq_true_eq] at h
      have hr : index < pv.data_.length := h.1
      have := ih ⟨pv.data_.eraseIdx index, LogWriter.Append pv.log_ (createEraseLog index) .written⟩
        (by simpa [PersistentVector.size, List.length_eraseIdx, hr] using h.2)
      simpa [PersistentVector.calls, PersistentVector.call, EraseResult.toVector,
        PersistentVector.erase, hr] using this

/-! ## Small facts used by the claims -/

theorem longValue_length : longValue.length = 1000000000 := List.length_replicate _ _

theorem decimal_billion :
    decimal 1000000000 = [49, 48, 48, 48, 48, 48, 48, 48, 48, 48] := by decide

theorem calls_single_push (v : List Byte) :
    PersistentVector.calls ⟨[], []⟩ [Call.push_back v] = .ok ⟨[v], createPushLog v⟩ := rfl

theorem push_all_data (calls : List (List Byte × WriteResult)) (pv : PersistentVector) :
    (pv.pushAll calls).data_ = pv.data_ ++ calls.map Prod.fst := by
  induction calls generalizing pv with
  | nil => simp [PersistentVector.pushAll]
  | cons c cs ih =>
    rw [PersistentVector.pushAll, ih]
    simp [PersistentVector.push_back]

theorem at_eq (pv : PersistentVector) (index : Nat) (h : index < pv.data_.length) :
    pv.at index = .ok (pv.data_.get ⟨index, h⟩) := by
  simp [PersistentVector.at, List.getElem?_eq_getElem h]

theorem at_out (pv : PersistentVector) (index : Nat) (h : pv.data_.length ≤ index) :
    pv.at index = .error .undefinedBehaviour := by
  simp [PersistentVector.at, List.getElem?_eq_none h]

theorem snprintf10_billion :
    snprintf10 1000000000 = [49, 48, 48, 48, 48, 48, 48, 48, 48] := by decide

theorem createPushLog_billion (v : List Byte) (h : v.length = 1000000000) :
    createPushLog v ≠ [49, 44] ++ decimal v.length ++ [44] ++ v ++ [10] := by
  intro heq
  rw [createPushLog, h, snprintf10_billion, decimal_billion] at heq
  have := congrArg List.length heq
  simp only [List.length_append, List.length_cons, List.length_nil, h] at this
  omega

theorem createPushLog_billion_eq (v : List Byte) (h : v.length = 1000000000) :
    createPushLog v = [49, 44, 49, 48, 48, 48, 48, 48, 48, 48, 48, 44] ++ v ++ [10] := by
  rw [createPushLog, h, snprintf10_billion]
  rfl

/-! ## The index an erase record carries -/

theorem digitsVal_take_decimalAux (fuel n k : Nat) (h : n < fuel) :
    digitsVal 0 ((decimalAux fuel n []).take k) ≤ n := by
  induction fuel generalizing n k with
  | zero => omega
  | succ fuel ih =>
    have hfull := digitsVal_decimalAux (fuel + 1) n h
    rw [decimalAux_succ] at hfull ⊢
    split
    · rename_i h0
      rw [if_pos h0] at hfull
      cases k with
      | zero => simp [digitsVal]
      | succ k => simp only [List.take_succ_cons, List.take_nil]; omega
    · rename_i h0
      rw [if_neg h0] at hfull
      by_cases hk : k ≤ (decimalAux fuel (n / 10) []).length
      · rw [List.take_append_of_le_length hk]
        have := ih (n / 10) k (by omega)
        omega
      · rw [List.take_of_length_le (by simp only [List.length_append, List.length_singleton]; omega)]
        omega

theorem digitsVal_take_decimal (n k : Nat) : digitsVal 0 ((decimal n).take k) ≤ n :=
  digitsVal_take_decimalAux (n + 1) n k (Nat.lt_succ_self n)

theorem digitsVal_take_succ (ds : List Byte) (k : Nat) (hk : k < ds.length) :
    digitsVal 0 (ds.take k) * 10 ≤ digitsVal 0 (ds.take (k + 1)) := by
  rw [List.take_succ, digitsVal_append, List.getElem?_eq_getElem hk]
  simp only [Option.toList, digitsVal, List.foldl_cons, List.foldl_nil]
  omega

theorem snprintf10_isdigit (n : Nat) : ∀ c ∈ snprintf10 n, isdigit c = true :=
  fun c hc => decimal_isdigit n c (List.mem_of_mem_take hc)

theorem snprintf10_length_le (n : Nat) : (snprintf10 n).length ≤ 9 := by
  simp [snprintf10, List.length_take]

theorem snprintf10_ne_nil (n : Nat) : snprintf10 n ≠ [] := by
  have h := decimal_ne_nil n
  cases hd : decimal n with
  | nil => exact absurd hd h
  | cons c cs => simp [snprintf10, hd]

theorem digitsVal_lt_of_length (ds : List Byte) (hd : ∀ c ∈ ds, isdigit c = true)
    (hl : ds.length ≤ 9) : digitsVal 0 ds < 1000000000 := by
  rw [← atoiDigits_digits ds hd]
  exact atoiDigits_zero_lt ds hl

theorem loggedIndex_le (index : Nat) : loggedIndex index ≤ index :=
  Nat.le_trans (digitsVal_take_decimal _ 9) (Nat.mod_le _ _)

theorem loggedIndex_eq (index : Nat) (h : index < 1000000000) : loggedIndex index = index := by
  rw [loggedIndex, Nat.mod_eq_of_lt (by omega), snprintf10_eq _ h, digitsVal_decimal]

theorem readEraseLine_digits (fuel : Nat) (ds rest : List Byte) (hne : ds ≠ [])
    (hd : ∀ c ∈ ds, isdigit c = true) (hv : digitsVal 0 ds ≤ 2147483647)
    (hfuel : ds.length + 1 ≤ fuel) :
    LogReader.readEraseLine fuel ⟨[44] ++ ds ++ [10] ++ rest, false⟩ =
      .ok ((digitsVal 0 ds : Nat), ⟨rest, false⟩) := by
  cases ds with
  | nil => exact absurd rfl hne
  | cons c ds =>
    have := readEraseLoop_digits ds rest 0 c fuel (hd c (List.mem_cons_self _ _))
      (fun x hx => hd x (List.mem_cons_of_mem _ hx)) hv (by simpa using hfuel)
    simpa [LogReader.readEraseLine, LogReader.readCommaFromInput, LogReader.skipChar,
      IStream.get] using this

theorem Next_createEraseLog_logged (fuel index : Nat) (rest : List Byte) (hfuel : 10 ≤ fuel) :
    LogReader.Next fuel ⟨createEraseLog index ++ rest, false⟩ =
      .ok (some (.erase (loggedIndex index : Nat), ⟨rest, false⟩)) := by
  have hd := snprintf10_isdigit (index % 4294967296)
  have hl := snprintf10_length_le (index % 4294967296)
  have hv := digitsVal_lt_of_length _ hd hl
  have := readEraseLine_digits fuel _ rest (snprintf10_ne_nil (index % 4294967296)) hd
    (by omega) (by omega)
  simp only [List.singleton_append, List.cons_append, List.append_assoc, List.nil_append] at this
  simp [LogReader.Next, createEraseLog, loggedIndex, this]

/-! ## Replaying records, whatever follows them -/

theorem replay_fail (fuel : Nat) (rest : List Byte) (data : List (List Byte)) :
    replay (fuel + 1) ⟨rest, true⟩ data = .ok data := by
  simp [replay, LogReader.Next]

theorem replay_erase_logged (fuel index : Nat) (rest : List Byte) (data : List (List Byte))
    (hr : loggedIndex index < data.length) (hfuel : 10 ≤ fuel) :
    replay (fuel + 1) ⟨createEraseLog index ++ rest, false⟩ data =
      replay fuel ⟨rest, false⟩ (data.eraseIdx (loggedIndex index)) := by
  have h1 : (0 : Int) ≤ (loggedIndex index : Int) ∧
      (loggedIndex index : Int) < (data.length : Int) :=
    ⟨Int.natCast_nonneg _, by exact_mod_cast hr⟩
  simp only [replay, Next_createEraseLog_logged fuel index rest hfuel, h1, and_self, if_true,
    Int.toNat_ofNat]

theorem replay_records (cs : List Call) (data : List (List Byte)) (fuel : Nat)
    (rest : List Byte) (hcap : ∀ c ∈ cs, c.valueWithinCap = true)
    (hrange : callsInRange data.length cs = true) (hfuel : 10 ≤ fuel) :
    replay (fuel + cs.length) ⟨recordsOf cs ++ rest, false⟩ data =
      replay fuel ⟨rest, false⟩ (cs.foldl replayStep data) := by
  induction cs generalizing data with
  | nil => rfl
  | cons c cs ih =>
    have hc := hcap c (List.mem_cons_self _ _)
    have hcs : ∀ c ∈ cs, c.valueWithinCap = true :=
      fun x hx => hcap x (List.mem_cons_of_mem _ hx)
    have hlen : fuel + (c :: cs).length = (fuel + cs.length) + 1 := by
      simp only [List.length_cons]; omega
    rw [hlen]
    cases c with
    | push_back v =>
      simp only [Call.valueWithinCap, decide_eq_true_eq] at hc
      simp only [callsInRange] at hrange
      simp only [recordsOf, Call.record, List.append_assoc, List.foldl_cons, replayStep]
      rw [replay_push _ v _ _ hc]
      exact ih (data ++ [v]) hcs (by simpa using hrange)
    | erase index =>
      simp only [callsInRange, Bool.and_eq_true, decide_eq_true_eq] at hrange
      have hlt : loggedIndex index < data.length :=
        Nat.lt_of_le_of_lt (loggedIndex_le index) hrange.1
      simp only [recordsOf, Call.record, List.append_assoc, List.foldl_cons, replayStep]
      rw [replay_erase_logged _ index _ _ hlt (by omega)]
      exact ih (data.eraseIdx (loggedIndex index)) hcs
        (by rw [List.length_eraseIdx, if_pos hlt]; exact hrange.2)

theorem replay_records_nil (cs : List Call) (data : List (List Byte)) (fuel : Nat)
    (hcap : ∀ c ∈ cs, c.valueWithinCap = true)
    (hrange : callsInRange data.length cs = true) (hfuel : cs.length + 10 ≤ fuel) :
    replay fuel ⟨recordsOf cs, false⟩ data = .ok (cs.foldl replayStep data) := by
  obtain ⟨f, rfl⟩ : ∃ f, fuel = (f + 10) + cs.length := ⟨fuel - cs.length - 10, by omega⟩
  have := replay_records cs data (f + 10) [] hcap hrange (by omega)
  rw [List.append_nil] at this
  rw [this]
  exact replay_nil (f + 9) _

theorem foldl_replayStep_eq (cs : List Call) (data : List (List Byte))
    (hcap : ∀ c ∈ cs, c.withinCap = true) :
    cs.foldl replayStep data = cs.foldl specApply data := by
  induction cs generalizing data with
  | nil => rfl
  | cons c cs ih =>
    have hc := hcap c (List.mem_cons_self _ _)
    have hcs : ∀ c ∈ cs, c.withinCap = true := fun x hx => hcap x (List.mem_cons_of_mem _ hx)
    cases c with
    | push_back v => simpa [replayStep, specApply] using ih _ hcs
    | erase index =>
      simp only [Call.withinCap, decide_eq_true_eq] at hc
      simpa [replayStep, specApply, loggedIndex_eq index hc] using ih _ hcs

theorem valueWithinCap_of_withinCap (c : Call) (h : c.withinCap = true) :
    c.valueWithinCap = true := by
  cases c with
  | push_back v => exact h
  | erase index => rfl

theorem specLog_eq_recordsOf (cs : List Call) (hcap : ∀ c ∈ cs, c.withinCap = true) :
    specLog cs = recordsOf cs := by
  induction cs with
  | nil => rfl
  | cons c cs ih =>
    have hc := hcap c (List.mem_cons_self _ _)
    rw [specLog, recordsOf, ih (fun x hx => hcap x (List.mem_cons_of_mem _ hx))]
    cases c with
    | push_back v =>
      simp only [Call.withinCap, decide_eq_true_eq] at hc
      simp only [specWire, Call.record, createPushLog, snprintf10_eq _ hc]
    | erase index =>
      simp only [Call.withinCap, decide_eq_true_eq] at hc
      simp only [specWire, Call.record, createEraseLog, Nat.mod_eq_of_lt (show index < 4294967296 by omega),
        snprintf10_eq _ hc]

/-! ## Logs that are not well-formed -/

theorem skipChar_nil (f : Bool) : LogReader.skipChar ⟨[], f⟩ = ⟨[], true⟩ := by
  cases f <;> rfl

theorem readContent_pad (k : Nat) (b : Byte) (f : Bool) :
    ∃ f', LogReader.readContent k (some b) ⟨[], f⟩ = .ok (List.replicate k b, ⟨[], f'⟩) := by
  induction k generalizing f with
  | zero => exact ⟨f, rfl⟩
  | succ k ih =>
    obtain ⟨f', h⟩ := ih true
    refine ⟨f', ?_⟩
    cases f <;> simp [LogReader.readContent, IStream.get, h, List.replicate_succ]

theorem readContent_truncated (vs : List Byte) (b : Byte) (k : Nat) (c : Option Byte) :
    ∃ f', LogReader.readContent (vs.length + 1 + k) c ⟨vs ++ [b], false⟩ =
      .ok (vs ++ b :: List.replicate k b, ⟨[], f'⟩) := by
  induction vs generalizing c with
  | nil =>
    obtain ⟨f', h⟩ := readContent_pad k b false
    refine ⟨f', ?_⟩
    have : ([] : List Byte).length + 1 + k = k + 1 := by simp; omega
    rw [this]
    simp [LogReader.readContent, IStream.get, h]
  | cons x vs ih =>
    obtain ⟨f', h⟩ := ih (some x)
    refine ⟨f', ?_⟩
    have : (x :: vs).length + 1 + k = (vs.length + 1 + k) + 1 := by simp; omega
    rw [this]
    simp [LogReader.readContent, IStream.get, h]

theorem readPushLine_truncated (vs : List Byte) (b : Byte) (k : Nat)
    (h : vs.length + 1 + k < 1000000000) :
    LogReader.readPushLine ⟨[44] ++ decimal (vs.length + 1 + k) ++ [44] ++ vs ++ [b], false⟩ =
      .ok (vs ++ b :: List.replicate k b, ⟨[], true⟩) := by
  have hne := decimal_ne_nil (vs.length + 1 + k)
  have hf : IStream.getField ⟨decimal (vs.length + 1 + k) ++ 44 :: (vs ++ [b]), false⟩ =
      (decimal (vs.length + 1 + k), ⟨44 :: (vs ++ [b]), false⟩) := by
    simp [IStream.getField,
      getUntilComma_digits _ _ 9 (decimal_isdigit _) (decimal_length_le _ h), hne]
  obtain ⟨f', hc⟩ := readContent_truncated vs b k none
  simp only [LogReader.readPushLine, LogReader.readCommaFromInput, LogReader.skipChar,
    LogReader.readNewLineFromInput, IStream.get, List.singleton_append, List.cons_append,
    List.append_assoc, List.nil_append, if_false, Bool.false_eq_true, hf, atoi_decimal]
  simp only [Int.toNat_ofNat, hc]
  have hnn : ¬ ((vs.length : Int) + 1 + (k : Int) < 0) := by omega
  cases f' <;> simp [hnn]

theorem replay_truncated (fuel : Nat) (vs : List Byte) (b : Byte) (k : Nat)
    (data : List (List Byte)) (h : vs.length + 1 + k < 1000000000) :
    replay (fuel + 2)
        ⟨[49, 44] ++ decimal (vs.length + 1 + k) ++ [44] ++ vs ++ [b], false⟩ data =
      .ok (data ++ [vs ++ b :: List.replicate k b]) := by
  have h1 := readPushLine_truncated vs b k h
  simp only [List.singleton_append, List.cons_append, List.append_assoc, List.nil_append] at h1
  have h2 : LogReader.Next (fuel + 1)
      ⟨[49, 44] ++ decimal (vs.length + 1 + k) ++ [44] ++ vs ++ [b], false⟩ =
      .ok (some (.push 49 (vs ++ b :: List.replicate k b), ⟨[], true⟩)) := by
    simp [LogReader.Next, h1]
  rw [replay, h2]
  exact replay_fail fuel [] _

theorem specWire_getLast (c : Call) : (specWire c).getLast? = some 10 := by
  cases c with
  | push_back v => exact List.getLast?_concat _
  | erase index => exact List.getLast?_concat _

theorem specLog_getLast (cs : List Call) :
    specLog cs = [] ∨ (specLog cs).getLast? = some 10 := by
  induction cs with
  | nil => exact Or.inl rfl
  | cons c cs ih =>
    right
    rw [specLog]
    rcases ih with h | h
    · rw [h, List.append_nil]; exact specWire_getLast c
    · cases hs : specLog cs with
      | nil => rw [hs] at h; simp at h
      | cons x xs =>
        rw [hs] at h
        rw [List.getLast?_append_of_ne_nil _ (List.cons_ne_nil x xs)]
        exact h

theorem not_wellFormed_of_last (log : List Byte) (b : Byte) (hb : b ≠ 10) :
    ¬ WellFormedLog (log ++ [b]) := by
  rintro ⟨cs, _, h⟩
  rcases specLog_getLast cs with h1 | h1
  · rw [h1] at h; simp at h
  · rw [← h] at h1
    simp at h1
    exact hb h1

theorem readEraseLoop_stuck (fuel : Nat) :
    LogReader.readEraseLoop fuel 0 48 ⟨[], true⟩ = .error .outOfFuel := by
  induction fuel with
  | zero => rfl
  | succ fuel ih =>
    rw [LogReader.readEraseLoop]
    simpa [IStream.get, inIntRange, LogReader.charToInt, charValue] using ih

theorem readEraseLoop_at_end (fuel : Nat) :
    LogReader.readEraseLoop fuel 0 48 ⟨[], false⟩ = .error .outOfFuel := by
  cases fuel with
  | zero => rfl
  | succ fuel =>
    rw [LogReader.readEraseLoop]
    simpa [IStream.get, inIntRange, LogReader.charToInt, charValue] using readEraseLoop_stuck fuel

theorem Next_erase_without_newline (fuel : Nat) :
    LogReader.Next fuel ⟨[48, 44, 48], false⟩ = .error .outOfFuel := by
  simp [LogReader.Next, LogReader.readEraseLine, LogReader.readCommaFromInput,
    LogReader.skipChar, IStream.get, readEraseLoop_at_end]

theorem replay_erase_without_newline (fuel : Nat) (data : List (List Byte)) :
    replay fuel ⟨[48, 44, 48], false⟩ data = .error .outOfFuel := by
  cases fuel with
  | zero => rfl
  | succ fuel => simp [replay, Next_erase_without_newline]

theorem Next_result_kind (fuel : Nat) (type : Byte) (bs : List Byte) (r : Record)
    (s' : IStream) (h : LogReader.Next fuel ⟨type :: bs, false⟩ = .ok (some (r, s'))) :
    (∃ i, r = .erase i) ↔ type = 48 := by
  simp only [LogReader.Next, Bool.false_eq_true, if_false] at h
  split at h
  · rename_i ht
    split at h
    · simp only [Except.ok.injEq, Option.some.injEq, Prod.mk.injEq] at h
      exact ⟨fun _ => ht, fun _ => ⟨_, h.1.symm⟩⟩
    · exact absurd h (by simp)
  · rename_i ht
    split at h
    · simp only [Except.ok.injEq, Option.some.injEq, Prod.mk.injEq] at h
      constructor
      · rintro ⟨i, hi⟩
        rw [← h.1] at hi
        exact absurd hi (by simp)
      · intro h48
        exact absurd h48 ht
    · exact absurd h (by simp)

theorem Next_push_any_type (fuel : Nat) (type : Byte) (bs : List Byte) (ht : type ≠ 48)
    (content : List Byte) (s' : IStream) :
    LogReader.Next fuel ⟨type :: bs, false⟩ = .ok (some (.push type content, s')) ↔
      LogReader.Next fuel ⟨49 :: bs, false⟩ = .ok (some (.push 49 content, s')) := by
  have h49 : (49 : Byte) ≠ 48 := by decide
  simp only [LogReader.Next, Bool.false_eq_true, if_false, ht, h49]
  cases LogReader.readPushLine ⟨bs, false⟩ with
  | error f => simp
  | ok p => simp

/-! ## The claims -/

/-- C1 (as stated, refuted): pushing one value of 10^9 bytes onto the vector of
an empty log leaves that value in memory, but no replay of the resulting log
gives the vector back: the length field of the record was cut to 9 digits. -/
theorem replay_loses_long_value :
    PersistentVector.calls ⟨[], []⟩ [Call.push_back longValue] =
        .ok ⟨[longValue], createPushLog longValue⟩ ∧
      ¬ ∃ fuel, PersistentVector.construct fuel (some (createPushLog longValue)) =
        .ok ⟨[longValue], createPushLog longValue⟩ := by
  refine ⟨calls_single_push longValue, ?_⟩
  rintro ⟨fuel, h⟩
  simp only [PersistentVector.construct] at h
  split at h
  · rename_i data hdata
    simp only [Except.ok.injEq, PersistentVector.mk.injEq] at h
    have hb := replay_lengths _ _ _ _ hdata (by simp) longValue (by rw [h.1]; simp)
    rw [longValue_length] at hb
    omega
  · exact absurd h (by simp)

/-- C1 (amended): for every sequence of `push_back` calls with values shorter
than 10^9 bytes and `erase` calls whose index is in range at the time of the
call and below 10^9, every append reaching the log, applied to the vector of
an empty log: the calls return a vector, and constructing a new vector over
its log (with any loop budget of at least the log length plus 11) yields
exactly that vector. -/
theorem construct_after_calls (cs : List Call)
    (hrange : callsInRange 0 cs = true) (hcap : ∀ c ∈ cs, c.withinCap = true) :
    ∃ pv, PersistentVector.calls ⟨[], []⟩ cs = .ok pv ∧
      ∀ fuel, pv.log_.length + 11 ≤ fuel →
        PersistentVector.construct fuel (some pv.log_) = .ok pv := by
  obtain ⟨pv, hpv⟩ := calls_ok_of_inRange cs ⟨[], []⟩ hrange
  refine ⟨pv, hpv, ?_⟩
  intro fuel hfuel
  have hlog : pv.log_ = recordsOf cs := by simpa using calls_log cs _ _ hpv
  rw [hlog] at hfuel
  have := calls_replay cs _ pv fuel hpv hcap hfuel
  simp only [PersistentVector.construct, LogReader.Start, hlog, this, Option.getD_some]
  rw [← hlog]

/-- C1 witness: push "foo", push the two bytes `,` and newline, erase index 0,
push the empty string. -/
theorem construct_after_calls_witness :
    ∃ pv, PersistentVector.calls ⟨[], []⟩
        [Call.push_back [102, 111, 111], Call.push_back [44, 10], Call.erase 0,
          Call.push_back []] = .ok pv ∧
      ∀ fuel, pv.log_.length + 11 ≤ fuel →
        PersistentVector.construct fuel (some pv.log_) = .ok pv :=
  construct_after_calls
    [Call.push_back [102, 111, 111], Call.push_back [44, 10], Call.erase 0, Call.push_back []]
    (by decide) (by decide)

/-- C2: after pushing the values of any finite list (whatever happens to the
appends) onto an empty vector, `size()` is the number of values and `at(i)` is
the `i`-th value; and each `push_back(v)` on a vector of size `n` gives size
`n + 1`, `at(n) = v`, and leaves `at(j)` unchanged for every `j < n`. -/
theorem push_back_at_size (log : List Byte) (calls : List (List Byte × WriteResult)) :
    ((PersistentVector.pushAll ⟨[], log⟩ calls).size = calls.length ∧
      ∀ i (h : i < calls.length),
        (PersistentVector.pushAll ⟨[], log⟩ calls).at i = .ok (calls.get ⟨i, h⟩).1) ∧
    ∀ (pv : PersistentVector) (v : List Byte) (result : WriteResult),
      (pv.push_back v result).size = pv.size + 1 ∧
      (pv.push_back v result).at pv.size = .ok v ∧
      ∀ j, j < pv.size → (pv.push_back v result).at j = pv.at j := by
  refine ⟨⟨?_, ?_⟩, ?_⟩
  · simp [PersistentVector.size, push_all_data]
  · intro i h
    simp [PersistentVector.at, push_all_data, List.getElem?_eq_getElem, h]
  · intro pv v result
    refine ⟨by simp [PersistentVector.size, PersistentVector.push_back], ?_, ?_⟩
    · simp [PersistentVector.at, PersistentVector.size, PersistentVector.push_back]
    · intro j hj
      simp only [PersistentVector.size] at hj
      simp [PersistentVector.at, PersistentVector.push_back, List.getElem?_append_left hj]

/-- C2 witness: two pushes, the second with a failing append; `at(1)` is the
second value. -/
theorem push_back_at_size_witness :
    (PersistentVector.pushAll ⟨[], []⟩ [([102, 111, 111], .written), ([0, 255], .failed 1)]).at 1 =
      .ok [0, 255] :=
  (push_back_at_size [] [([102, 111, 111], .written), ([0, 255], .failed 1)]).1.2 1 (by decide)

/-- C3: for a vector of size `n` and `i < n`, `erase(i)` returns a vector of
size `n - 1` in which `at(j)` is unchanged for `j < i` and the new `at(j - 1)`
is the old `at(j)` for `i < j < n`. -/
theorem erase_shifts_down (pv : PersistentVector) (i : Nat) (result : WriteResult)
    (h : i < pv.size) :
    ∃ pv', (pv.erase i result).toVector = .ok pv' ∧
      pv'.size = pv.size - 1 ∧
      (∀ j, j < i → pv'.at j = pv.at j) ∧
      (∀ j, i < j → j < pv.size → pv'.at (j - 1) = pv.at j) := by
  simp only [PersistentVector.size] at h
  refine ⟨⟨pv.data_.eraseIdx i, LogWriter.Append pv.log_ (createEraseLog i) result⟩, ?_, ?_, ?_, ?_⟩
  · simp [PersistentVector.erase, EraseResult.toVector, h]
  · simp [PersistentVector.size, List.length_eraseIdx, h]
  · intro j hj
    simp [PersistentVector.at, List.getElem?_eraseIdx_of_lt _ _ _ hj]
  · intro j hij hj
    have h1 : i ≤ j - 1 := by omega
    have h2 : j - 1 + 1 = j := by omega
    simp [PersistentVector.at, List.getElem?_eraseIdx_of_ge _ _ _ h1, h2]

/-- C3 witness: erasing index 1 of a three-element vector. -/
theorem erase_shifts_down_witness :
    ∃ pv', (PersistentVector.erase ⟨[[1], [2], [3]], []⟩ 1 .written).toVector = .ok pv' ∧
      pv'.size = PersistentVector.size ⟨[[1], [2], [3]], []⟩ - 1 ∧
      (∀ j, j < 1 → pv'.at j = PersistentVector.at ⟨[[1], [2], [3]], []⟩ j) ∧
      (∀ j, 1 < j → j < PersistentVector.size ⟨[[1], [2], [3]], []⟩ →
        pv'.at (j - 1) = PersistentVector.at ⟨[[1], [2], [3]], []⟩ j) :=
  erase_shifts_down ⟨[[1], [2], [3]], []⟩ 1 .written (by decide)

/-- C4 (as stated, refuted): the line `push_back` writes for a value of 10^9
bytes, followed by a newline byte, does not decode to a push record with that
value as content, whatever the loop budget. -/
theorem long_value_not_decoded :
    ¬ ∃ fuel type s', LogReader.Next fuel ⟨createPushLog longValue ++ [10], false⟩ =
        .ok (some (.push type longValue, s')) := by
  rintro ⟨fuel, type, s', h⟩
  have hb := Next_push_length _ _ _ _ _ h
  rw [longValue_length] at hb
  omega

/-- C4 (amended): for every content shorter than 10^9 bytes, whatever bytes it
contains, and every following log bytes `rest`, decoding the line `push_back`
writes for the content followed by `rest` yields a push record with exactly
that content and leaves the reader at the first byte of `rest`. -/
theorem push_line_round_trip (fuel : Nat) (v rest : List Byte) (h : v.length < 1000000000) :
    LogReader.Next fuel ⟨createPushLog v ++ rest, false⟩ =
      .ok (some (.push 49 v, ⟨rest, false⟩)) :=
  Next_createPushLog fuel v rest h

/-- C4 witness: a content holding a comma, a newline, NUL, a digit and 0xFF,
followed by the start of another record. -/
theorem push_line_round_trip_witness :
    LogReader.Next 0 ⟨createPushLog [44, 10, 0, 49, 255] ++ [48, 44], false⟩ =
      .ok (some (.push 49 [44, 10, 0, 49, 255], ⟨[48, 44], false⟩)) :=
  push_line_round_trip 0 [44, 10, 0, 49, 255] [48, 44] (by decide)

/-- C5 (as stated, refuted): for a value of 10^9 bytes the record is `1,`,
the nine digits `100000000`, `,`, the value and a newline; it is not the record
with the decimal representation of the length, which has ten digits. -/
theorem push_record_truncates_length :
    createPushLog longValue =
        [49, 44, 49, 48, 48, 48, 48, 48, 48, 48, 48, 44] ++ longValue ++ [10] ∧
      createPushLog longValue ≠
        [49, 44] ++ decimal longValue.length ++ [44] ++ longValue ++ [10] :=
  ⟨createPushLog_billion_eq longValue longValue_length,
    createPushLog_billion longValue longValue_length⟩

/-- C5 (amended): for every value shorter than 10^9 bytes the record
`push_back` appends is the bytes `1`, `,`, the decimal ASCII representation of
the length (the ASCII codes of the digits `Nat.toDigits 10` gives), `,`, the
value verbatim and one newline. -/
theorem push_record_format (v : List Byte) (h : v.length < 1000000000) :
    createPushLog v = [49, 44] ++ decimal v.length ++ [44] ++ v ++ [10] ∧
      decimal v.length =
        (Nat.toDigits 10 v.length).map (fun c => (Fin.ofNat c.toNat : Byte)) ∧
      ∀ pv : PersistentVector, (pv.push_back v .written).log_ =
        pv.log_ ++ ([49, 44] ++ decimal v.length ++ [44] ++ v ++ [10]) := by
  have h1 : createPushLog v = [49, 44] ++ decimal v.length ++ [44] ++ v ++ [10] := by
    rw [createPushLog, snprintf10_eq _ h]
  refine ⟨h1, decimal_eq_toDigits _, fun pv => ?_⟩
  rw [← h1]
  rfl

/-- C5 witness: the record of "foo" is `1,3,foo` and a newline. -/
theorem push_record_format_witness :
    createPushLog [102, 111, 111] = [49, 44, 51, 44, 102, 111, 111, 10] :=
  (push_record_format [102, 111, 111] (by decide)).1

/-- C6 (as stated, refuted): for index 10^9 the erase record is `0,100000000`
and a newline, not the decimal representation of the index. -/
theorem erase_record_truncates_index :
    createEraseLog 1000000000 ≠ [48, 44] ++ decimal 1000000000 ++ [10] ∧
      createEraseLog 1000000000 = [48, 44, 49, 48, 48, 48, 48, 48, 48, 48, 48, 10] := by
  decide

/-- C6 (amended): for every index below 10^9 passed to `erase` the record
appended is the bytes `0`, `,`, the decimal ASCII representation of the index
(the ASCII codes of the digits `Nat.toDigits 10` gives) and one newline. -/
theorem erase_record_format (index : Nat) (h : index < 1000000000) :
    createEraseLog index = [48, 44] ++ decimal index ++ [10] ∧
      decimal index = (Nat.toDigits 10 index).map (fun c => (Fin.ofNat c.toNat : Byte)) ∧
      ∀ pv : PersistentVector, (pv.erase index .written).log_ =
        pv.log_ ++ ([48, 44] ++ decimal index ++ [10]) := by
  have h1 : createEraseLog index = [48, 44] ++ decimal index ++ [10] := by
    rw [createEraseLog, Nat.mod_eq_of_lt (by omega), snprintf10_eq _ h]
  refine ⟨h1, decimal_eq_toDigits _, fun pv => ?_⟩
  rw [← h1]
  rfl

/-- C6 witness: the record of `erase(873)` is `0,873` and a newline. -/
theorem erase_record_format_witness :
    createEraseLog 873 = [48, 44, 56, 55, 51, 10] :=
  (erase_record_format 873 (by decide)).1

/-- C7 (as stated, refuted): a `push_back("foo")` on an empty log whose write
fails after 4 bytes leaves `1,3,` in the log, not the record; and a
`push_back` on a stream that takes no byte leaves the log as it was, not
longer. -/
theorem failed_append_breaks_record :
    (PersistentVector.push_back ⟨[], []⟩ [102, 111, 111] (.failed 4)).log_ = [49, 44, 51, 44] ∧
      (PersistentVector.push_back ⟨[], []⟩ [102, 111, 111] (.failed 4)).log_ ≠
        [] ++ createPushLog [102, 111, 111] ∧
      ¬ ([49, 44, 48, 44, 10] : List Byte).length <
        (PersistentVector.push_back ⟨[], [49, 44, 48, 44, 10]⟩ [102] (.failed 0)).log_.length := by
  decide

/-- C7 (amended): for every state and every `push_back` or `erase` call whose
append succeeds, the log after the call is the log before it followed by
exactly that call's record, hence strictly longer (also for `erase`).  For
every call, also one whose append fails, earlier bytes are never changed or
removed: the log after the call is the log before it followed by a leading
part of the call's record.  After any sequence of calls whose appends succeed
and that return, the log is the initial log followed by the calls' records in
the order of the calls. -/
theorem log_grows_by_records (pv : PersistentVector) :
    (∀ v, (pv.push_back v .written).log_ = pv.log_ ++ createPushLog v ∧
      pv.log_.length < (pv.push_back v .written).log_.length) ∧
    (∀ index, (pv.erase index .written).log_ = pv.log_ ++ createEraseLog index ∧
      pv.log_.length < (pv.erase index .written).log_.length) ∧
    (∀ v result, ∃ reached,
      (pv.push_back v result).log_ = pv.log_ ++ (createPushLog v).take reached) ∧
    (∀ index result, ∃ reached,
      (pv.erase index result).log_ = pv.log_ ++ (createEraseLog index).take reached) ∧
    (∀ cs pv', pv.calls cs = .ok pv' → pv'.log_ = pv.log_ ++ recordsOf cs) := by
  refine ⟨fun v => ⟨rfl, ?_⟩, fun index => ⟨rfl, ?_⟩, fun v result => ?_,
    fun index result => ?_, fun cs pv' h => calls_log cs pv pv' h⟩
  · have := createPushLog_length_pos v
    simp only [PersistentVector.push_back, LogWriter.Append, List.length_append]
    omega
  · have := createEraseLog_length_pos index
    simp only [PersistentVector.erase, LogWriter.Append, List.length_append]
    omega
  · cases result with
    | written => exact ⟨(createPushLog v).length, by
        simp [PersistentVector.push_back, LogWriter.Append]⟩
    | failed reached => exact ⟨reached, rfl⟩
  · cases result with
    | written => exact ⟨(createEraseLog index).length, by
        simp [PersistentVector.erase, LogWriter.Append]⟩
    | failed reached => exact ⟨reached, rfl⟩

/-- C7 witness: push "a", push "b", erase index 0, from a one-element vector
whose log already holds one record. -/
theorem log_grows_by_records_witness :
    (⟨[[97], [98]], [49, 44, 48, 44, 10, 49, 44, 49, 44, 97, 10, 49, 44, 49, 44, 98, 10,
        48, 44, 48, 10]⟩ : PersistentVector).log_ =
      (⟨[[]], [49, 44, 48, 44, 10]⟩ : PersistentVector).log_ ++
        recordsOf [Call.push_back [97], Call.push_back [98], Call.erase 0] :=
  (log_grows_by_records ⟨[[]], [49, 44, 48, 44, 10]⟩).2.2.2.2
    [Call.push_back [97], Call.push_back [98], Call.erase 0] _ (by decide)

/-- C8 (as stated, refuted): on the empty vector `at(0)` is the unchecked
access `data_[0]`: undefined behaviour, no error reaches the caller. -/
theorem at_reports_nothing :
    PersistentVector.size ⟨[], []⟩ ≤ 0 ∧
      PersistentVector.at ⟨[], []⟩ 0 ≠ .error .exception ∧
      PersistentVector.at ⟨[], []⟩ 0 = .error .undefinedBehaviour := by
  decide

/-- C8 (amended): for every index below `size()`, `at(index)` returns the
element at that index; for an index at or above `size()` nothing is checked
and nothing is reported: the access lies outside the vector. -/
theorem at_in_and_out_of_range (pv : PersistentVector) (index : Nat) :
    (∀ h : index < pv.size, pv.at index = .ok (pv.data_.get ⟨index, h⟩)) ∧
      (pv.size ≤ index → pv.at index = .error .undefinedBehaviour) :=
  ⟨fun h => at_eq pv index h, fun h => at_out pv index h⟩

/-- C8 witness: index 1 and index 2 of a two-element vector. -/
theorem at_in_and_out_of_range_witness :
    PersistentVector.at ⟨[[102], [0, 255]], []⟩ 1 = .ok [0, 255] ∧
      PersistentVector.at ⟨[[102], [0, 255]], []⟩ 2 = .error .undefinedBehaviour :=
  ⟨(at_in_and_out_of_range ⟨[[102], [0, 255]], []⟩ 1).1 (by decide),
    (at_in_and_out_of_range ⟨[[102], [0, 255]], []⟩ 2).2 (by decide)⟩

/-- C9 (as stated, refuted): `erase(0)` on the empty vector with an empty log
appends the record `0,0` and a newline to the log, and no error reaches the
caller. -/
theorem erase_out_of_range_appends :
    PersistentVector.size ⟨[], []⟩ ≤ 0 ∧
      (PersistentVector.erase ⟨[], []⟩ 0 .written).log_ = [48, 44, 48, 10] ∧
      (PersistentVector.erase ⟨[], []⟩ 0 .written).log_ ≠ [] ∧
      (PersistentVector.erase ⟨[], []⟩ 0 .written).data_ ≠ .error .exception := by
  decide

/-- C9 (amended): for every index at or above `size()`, `erase(index)` checks
and reports nothing: it appends the erase record to the log like every other
`erase` call, and the removal that follows lies outside the vector. -/
theorem erase_out_of_range (pv : PersistentVector) (index : Nat) (h : pv.size ≤ index) :
    (pv.erase index .written).log_ = pv.log_ ++ createEraseLog index ∧
      (pv.erase index .written).data_ = .error .undefinedBehaviour := by
  simp only [PersistentVector.size] at h
  simp [PersistentVector.erase, LogWriter.Append, Nat.not_lt.2 h]

/-- C9 witness: `erase(5)` on a one-element vector. -/
theorem erase_out_of_range_witness :
    (PersistentVector.erase ⟨[[102]], [49, 44, 49, 44, 102, 10]⟩ 5 .written).log_ =
        [49, 44, 49, 44, 102, 10] ++ createEraseLog 5 ∧
      (PersistentVector.erase ⟨[[102]], [49, 44, 49, 44, 102, 10]⟩ 5 .written).data_ =
        .error .undefinedBehaviour :=
  erase_out_of_range ⟨[[102]], [49, 44, 49, 44, 102, 10]⟩ 5 (by decide)

/-- C10 (as stated, refuted): a `push_back("foo")` on the empty vector whose
append fails after 4 bytes (the log holds `1,3,`) still adds the value in
memory: the size goes from 0 to 1 and `at(0)` returns the value. -/
theorem failed_append_still_pushes :
    (PersistentVector.push_back ⟨[], []⟩ [102, 111, 111] (.failed 4)).data_ ≠ [] ∧
      (PersistentVector.push_back ⟨[], []⟩ [102, 111, 111] (.failed 4)).size = 1 ∧
      (PersistentVector.push_back ⟨[], []⟩ [102, 111, 111] (.failed 4)).at 0 =
        .ok [102, 111, 111] ∧
      (PersistentVector.push_back ⟨[], []⟩ [102, 111, 111] (.failed 4)).log_ =
        [49, 44, 51, 44] := by
  decide

/-- C10 (amended): a `push_back` or `erase` call whose log append fails,
after however many bytes, reports nothing and changes the in-memory sequence
exactly as a call whose append succeeds: `push_back` adds the value at the
tail (observable through `at` and `size`), `erase` with an index in range
removes the element. -/
theorem failed_append_applied_in_memory (pv : PersistentVector) (reached : Nat) :
    (∀ v, (pv.push_back v (.failed reached)).data_ = (pv.push_back v .written).data_ ∧
      (pv.push_back v (.failed reached)).data_ = pv.data_ ++ [v] ∧
      (pv.push_back v (.failed reached)).size = pv.size + 1 ∧
      (pv.push_back v (.failed reached)).at pv.size = .ok v) ∧
    (∀ index, (pv.erase index (.failed reached)).data_ = (pv.erase index .written).data_ ∧
      (index < pv.size →
        (pv.erase index (.failed reached)).data_ = .ok (pv.data_.eraseIdx index))) := by
  refine ⟨fun v => ⟨rfl, rfl, ?_, ?_⟩, fun index => ⟨rfl, fun h => ?_⟩⟩
  · simp [PersistentVector.size, PersistentVector.push_back]
  · simp [PersistentVector.at, PersistentVector.size, PersistentVector.push_back]
  · simp only [PersistentVector.size] at h
    simp [PersistentVector.erase, h]

/-- C10 witness: an `erase(0)` on a two-element vector whose append fails
after 2 bytes. -/
theorem failed_append_applied_in_memory_witness :
    (PersistentVector.erase ⟨[[1], [2]], []⟩ 0 (.failed 2)).data_ = .ok [[2]] :=
  ((failed_append_applied_in_memory ⟨[[1], [2]], []⟩ 2).2 0).2 (by decide)

/-- C11 (as stated, refuted): the log `1,5,abc` declares 5 content bytes and
ends after 3, without newline; it is not a concatenation of well-formed
records, yet the constructor returns a vector, holding `abccc`. -/
theorem truncated_log_builds_a_vector :
    ¬ WellFormedLog [49, 44, 53, 44, 97, 98, 99] ∧
      PersistentVector.construct 2 (some [49, 44, 53, 44, 97, 98, 99]) =
        .ok ⟨[[97, 98, 99, 99, 99]], [49, 44, 53, 44, 97, 98, 99]⟩ :=
  ⟨not_wellFormed_of_last [49, 44, 53, 44, 97, 98] 99 (by decide), by decide⟩

/-- C11 (amended): the constructor reports no parse error.  When well-formed
records (erase indices in range) are followed by a last push record whose
declared length, below 10^9, is the `vs.length + 1` content bytes present plus
`k` missing ones, the file ending there without newline, the log is not
well-formed (its last byte not being a newline) and the constructor returns
the vector of the preceding records followed by the content completed to the
declared length by repeating the last byte read. -/
theorem truncated_push_is_accepted (cs : List Call) (vs : List Byte) (b : Byte) (k : Nat)
    (hrange : callsInRange 0 cs = true) (hcap : ∀ c ∈ cs, c.withinCap = true)
    (hlen : vs.length + 1 + k < 1000000000) :
    (b ≠ 10 → ¬ WellFormedLog
      (specLog cs ++ ([49, 44] ++ decimal (vs.length + 1 + k) ++ [44] ++ vs ++ [b]))) ∧
    ∀ fuel, cs.length + 12 ≤ fuel →
      PersistentVector.construct fuel
          (some (specLog cs ++ ([49, 44] ++ decimal (vs.length + 1 + k) ++ [44] ++ vs ++ [b]))) =
        .ok ⟨cs.foldl specApply [] ++ [vs ++ b :: List.replicate k b],
          specLog cs ++ ([49, 44] ++ decimal (vs.length + 1 + k) ++ [44] ++ vs ++ [b])⟩ := by
  constructor
  · intro hb
    have := not_wellFormed_of_last
      (specLog cs ++ ([49, 44] ++ decimal (vs.length + 1 + k) ++ [44] ++ vs)) b hb
    simpa only [List.append_assoc] using this
  · intro fuel hfuel
    obtain ⟨f, rfl⟩ : ∃ f, fuel = (f + 12) + cs.length := ⟨fuel - cs.length - 12, by omega⟩
    have hval : ∀ c ∈ cs, c.valueWithinCap = true :=
      fun c hc => valueWithinCap_of_withinCap c (hcap c hc)
    have h1 := replay_records cs [] (f + 12)
      ([49, 44] ++ decimal (vs.length + 1 + k) ++ [44] ++ vs ++ [b]) hval hrange (by omega)
    rw [replay_truncated (f + 10) vs b k _ hlen, foldl_replayStep_eq cs [] hcap] at h1
    simp only [PersistentVector.construct, LogReader.Start, specLog_eq_recordsOf cs hcap, h1,
      Option.getD_some]

/-- C11 witness: after `1,1,a` and a newline, the record `1,4,xy` cut off after
two content bytes. -/
theorem truncated_push_is_accepted_witness :
    PersistentVector.construct 13
        (some [49, 44, 49, 44, 97, 10, 49, 44, 52, 44, 120, 121]) =
      .ok ⟨[[97], [120, 121, 121, 121]],
        [49, 44, 49, 44, 97, 10, 49, 44, 52, 44, 120, 121]⟩ :=
  (truncated_push_is_accepted [Call.push_back [97]] [120] 121 2 (by decide) (by decide)
    (by decide)).2 13 (by decide)

/-- C12: evaluation at the failing input.  On the log `0,0` without newline
`Next` does not return, whatever the loop budget: at the end of the file
`log_.get(c)` leaves `c` at `'0'` and the index at 0, so the loop condition
`c != '\n'` never changes; the constructor's replay does not return either. -/
theorem erase_record_without_newline_never_returns (fuel : Nat) :
    LogReader.Next fuel ⟨[48, 44, 48], false⟩ = .error .outOfFuel ∧
      PersistentVector.construct fuel (some [48, 44, 48]) = .error .outOfFuel := by
  refine ⟨Next_erase_without_newline fuel, ?_⟩
  simp [PersistentVector.construct, LogReader.Start, replay_erase_without_newline]

/-- C13: over a missing log and over an empty log the first `Next` call
signals the end of the sequence and the constructor, with any loop budget of
at least 1, returns a vector with `size() == 0`. -/
theorem missing_or_empty_log_is_empty (fuel : Nat) :
    LogReader.Next fuel (LogReader.Start none) = .ok none ∧
      LogReader.Next fuel (LogReader.Start (some [])) = .ok none ∧
      PersistentVector.construct (fuel + 1) none = .ok ⟨[], []⟩ ∧
      PersistentVector.construct (fuel + 1) (some []) = .ok ⟨[], []⟩ ∧
      PersistentVector.size ⟨[], []⟩ = 0 := by
  refine ⟨rfl, rfl, ?_, ?_, rfl⟩ <;>
    simp [PersistentVector.construct, LogReader.Start, replay, LogReader.Next]

/-- C14: for every log that is the concatenation of well-formed records
(fields within the 9-digit cap) in which every erase index is in range when it
is reached, the constructor, with any loop budget of at least the number of
records plus 10, builds the left fold of the specification's step over the
records, from the empty sequence. -/
theorem construct_is_fold_of_records (cs : List Call)
    (hcap : ∀ c ∈ cs, c.withinCap = true) (hrange : callsInRange 0 cs = true) :
    WellFormedLog (specLog cs) ∧
    ∀ fuel, cs.length + 10 ≤ fuel →
      PersistentVector.construct fuel (some (specLog cs)) =
        .ok ⟨cs.foldl specApply [], specLog cs⟩ := by
  refine ⟨⟨cs, hcap, rfl⟩, fun fuel hfuel => ?_⟩
  have hval : ∀ c ∈ cs, c.valueWithinCap = true :=
    fun c hc => valueWithinCap_of_withinCap c (hcap c hc)
  have h1 := replay_records_nil cs [] fuel hval hrange hfuel
  rw [foldl_replayStep_eq cs [] hcap] at h1
  simp only [PersistentVector.construct, LogReader.Start, specLog_eq_recordsOf cs hcap, h1,
    Option.getD_some]

/-- C14 witness: push "a", push "b", erase index 0, push "c": the constructor
builds `["b", "c"]`. -/
theorem construct_is_fold_of_records_witness :
    PersistentVector.construct 14
        (some [49, 44, 49, 44, 97, 10, 49, 44, 49, 44, 98, 10, 48, 44, 48, 10,
          49, 44, 49, 44, 99, 10]) =
      .ok ⟨[[98], [99]],
        [49, 44, 49, 44, 97, 10, 49, 44, 49, 44, 98, 10, 48, 44, 48, 10,
          49, 44, 49, 44, 99, 10]⟩ :=
  (construct_is_fold_of_records
    [Call.push_back [97], Call.push_back [98], Call.erase 0, Call.push_back [99]]
    (by decide) (by decide)).2 14 (by decide)

/-- C15 (as stated, refuted): the record `x,2,ab` and a newline, whose
discriminator byte is neither `'0'` nor `'1'`, is decoded as a push of `ab`,
and the constructor pushes it. -/
theorem other_discriminator_decoded_as_push :
    LogReader.Next 0 ⟨[120, 44, 50, 44, 97, 98, 10], false⟩ =
        .ok (some (.push 120 [97, 98], ⟨[], false⟩)) ∧
      PersistentVector.construct 2 (some [120, 44, 50, 44, 97, 98, 10]) =
        .ok ⟨[[97, 98]], [120, 44, 50, 44, 97, 98, 10]⟩ := by
  decide

/-- C15 (amended): `Next` decodes a record as an erase exactly when its
discriminator byte is `'0'`; every other discriminator byte, `'1'` or not, is
decoded as a push, with the content and the reader position the byte `'1'`
would give. -/
theorem discriminator_dispatch (fuel : Nat) (type : Byte) (bs : List Byte) :
    (∀ r s', LogReader.Next fuel ⟨type :: bs, false⟩ = .ok (some (r, s')) →
      ((∃ index, r = .erase index) ↔ type = 48)) ∧
    (type ≠ 48 → ∀ content s',
      (LogReader.Next fuel ⟨type :: bs, false⟩ = .ok (some (.push type content, s')) ↔
        LogReader.Next fuel ⟨49 :: bs, false⟩ = .ok (some (.push 49 content, s')))) :=
  ⟨fun r s' h => Next_result_kind fuel type bs r s' h,
    fun ht content s' => Next_push_any_type fuel type bs ht content s'⟩

/-- C15 witness: the discriminator `'1'` gives no erase record, and the
discriminator `x` gives the push record `'1'` gives. -/
theorem discriminator_dispatch_witness :
    ((∃ index, Record.push 49 [97, 98] = .erase index) ↔ (49 : Byte) = 48) ∧
      (LogReader.Next 0 ⟨120 :: [44, 50, 44, 97, 98, 10], false⟩ =
          .ok (some (.push 120 [97, 98], ⟨[], false⟩)) ↔
        LogReader.Next 0 ⟨49 :: [44, 50, 44, 97, 98, 10], false⟩ =
          .ok (some (.push 49 [97, 98], ⟨[], false⟩))) :=
  ⟨(discriminator_dispatch 0 49 [44, 50, 44, 97, 98, 10]).1 _ ⟨[], false⟩ (by decide),
    (discriminator_dispatch 0 120 [44, 50, 44, 97, 98, 10]).2 (by decide) [97, 98] ⟨[], false⟩⟩

/-- C17: for every index below 10^9 and every following log bytes `rest`,
decoding the line `createEraseLog(index)` followed by `rest` (loop budget at
least 10) yields an erase record carrying exactly that index and leaves the
reader at the first byte of `rest`; the line is `0,`, the decimal digits of
the index and a newline, and the accumulator, which after `k` digits holds the
value of the first `k` digits, never exceeds the index, hence stays within the
range of a 32-bit signed `int` together with its product by 10 before the
last digit is added. -/
theorem erase_line_round_trip (fuel index : Nat) (rest : List Byte)
    (h : index < 1000000000) (hfuel : 10 ≤ fuel) :
    LogReader.Next fuel ⟨createEraseLog index ++ rest, false⟩ =
        .ok (some (.erase index, ⟨rest, false⟩)) ∧
      createEraseLog index = [48, 44] ++ decimal index ++ [10] ∧
      (∀ c ∈ decimal index, LogReader.charToInt c = ((c.val - 48 : Nat) : Int)) ∧
      ∀ k, digitsVal 0 ((decimal index).take k) ≤ index ∧
        inIntRange ((digitsVal 0 ((decimal index).take k) : Nat) : Int) = true ∧
        (k < (decimal index).length →
          inIntRange (((digitsVal 0 ((decimal index).take k) : Nat) : Int) * 10) = true) := by
  refine ⟨Next_createEraseLog fuel index rest h hfuel, ?_, ?_, fun k => ?_⟩
  · rw [createEraseLog, Nat.mod_eq_of_lt (by omega), snprintf10_eq _ h]
  · exact fun c hc => charToInt_digit c (decimal_isdigit index c hc)
  · have hk := digitsVal_take_decimal index k
    refine ⟨hk, ?_, fun hlt => ?_⟩
    · simp only [inIntRange, Bool.and_eq_true, decide_eq_true_eq]
      omega
    · have h1 := digitsVal_take_succ (decimal index) k hlt
      have h2 := digitsVal_take_decimal index (k + 1)
      simp only [inIntRange, Bool.and_eq_true, decide_eq_true_eq]
      omega

/-- C17 witness: the line of `erase(873)` followed by the start of a push
record. -/
theorem erase_line_round_trip_witness :
    LogReader.Next 10 ⟨createEraseLog 873 ++ [49, 44], false⟩ =
      .ok (some (.erase 873, ⟨[49, 44], false⟩)) :=
  (erase_line_round_trip 10 873 [49, 44] (by decide) (by decide)).1

end PV
